import Mathlib

/-!
Verification of the tei2slob core (`tei2slob/__init__.py`): a shallow
embedding of the TEI-to-HTML transformation engine, the header metadata
extractor, and the multi-file document walker, together with theorems
settling the specification claims.

Python strings are modelled as `List Char` (`PyStr`); `None`-able element
text as `Option PyStr`; element attribute dictionaries as association
lists looked up like `dict.get`.  XML elements (`Elem`) and rendered HTML
elements (`HNode`) are nested trees.  Fallible operations (`strip_ns` on a
name without a brace, walking a missing file) return `Option`/error
values.  `etree.tostring` serialization is not modelled byte-for-byte: a
`Content.text` holds the rendered HTML tree itself, which determines the
serialized bytes.
-/

set_option maxRecDepth 10000

abbrev PyStr := List Char

/-- Whitespace test matching the characters Python's `\s` and `str.strip()`
recognise in the ASCII range (the inputs in this development are ASCII). -/
def pyIsSpace (c : Char) : Bool :=
  c = ' ' || c = '\t' || c = '\n' || c = '\r' || c = '\x0B' || c = '\x0C'

/-- Python `s.split(sep)` for a one-character separator: splits on every
occurrence, keeping empty pieces, and returns `[s]` when `sep` is absent. -/
def splitChar (sep : Char) : PyStr → List PyStr
  | [] => [[]]
  | c :: rest =>
    if c = sep then [] :: splitChar sep rest
    else
      match splitChar sep rest with
      | [] => [[c]]
      | p :: ps => (c :: p) :: ps

/-- Python `s.rfind(c)` for one character, as `Option Nat` (Python returns -1
for no occurrence, modelled as `none`). -/
def rfindIdx (c : Char) : PyStr → Option Nat
  | [] => none
  | a :: rest =>
    match rfindIdx c rest with
    | some i => some (i + 1)
    | none => if a = c then some 0 else none

/-- Python `dict.get(k)` over an association list. -/
def pyGet {β : Type} (l : List (PyStr × β)) (k : PyStr) : Option β :=
  match l with
  | [] => none
  | (a, b) :: rest => if a = k then some b else pyGet rest k

/-- Python `s.rstrip(c)` for a one-character strip set. -/
def pyRstrip (c : Char) (s : PyStr) : PyStr :=
  (s.reverse.dropWhile (fun x => x = c)).reverse

/-- Python `s.strip()` (whitespace from both ends). -/
def pyStripWS (s : PyStr) : PyStr :=
  ((s.dropWhile pyIsSpace).reverse.dropWhile pyIsSpace).reverse

/-- Start index of the file-name part scanned by `posixpath.splitext`:
`p.rfind('/') + 1` with -1 for no separator. -/
def fnameStart (p : PyStr) : Nat :=
  match rfindIdx '/' p with
  | none => 0
  | some s => s + 1

/-- Condition of `posixpath._splitext`'s inner scan: some character strictly
between the last separator and the last dot is not a dot (so the dot does
not belong to a leading-dots file name like `.bashrc`).  An empty range
(dot not after the separator, or immediately after it with only dots
before it) yields `false`. -/
def splitextCond (p : PyStr) (d : Nat) : Bool :=
  (List.range' (fnameStart p) (d - fnameStart p)).any (fun k => p[k]? != some '.')

/-- Python `os.path.splitext` (posix flavour). -/
def splitext (p : PyStr) : PyStr × PyStr :=
  match rfindIdx '.' p with
  | none => (p, [])
  | some d => if splitextCond p d then (p.take d, p.drop d) else (p, [])

/-- Python `os.path.basename` (posix flavour). -/
def pyBasename (p : PyStr) : PyStr :=
  match rfindIdx '/' p with
  | none => p
  | some s => p.drop (s + 1)

/-- Python `os.path.dirname` (posix flavour). -/
def pyDirname (p : PyStr) : PyStr :=
  match rfindIdx '/' p with
  | none => []
  | some s =>
    let hd := p.take (s + 1)
    if ¬(hd = []) ∧ ¬(hd.all (fun c => c = '/')) then pyRstrip '/' hd else hd

/-- Python `os.path.join` (posix flavour, two arguments). -/
def pyJoin (a b : PyStr) : PyStr :=
  if b.take 1 = ['/'] then b
  else if a = [] ∨ a.getLast? = some '/' then a ++ b
  else a ++ '/' :: b

/-- Python `os.path.normpath` (posix flavour). -/
def pyNormpath (path : PyStr) : PyStr :=
  if path = [] then ['.']
  else
    let initialSlashes : Nat :=
      if path.take 1 = ['/'] then
        if path.take 2 = ['/', '/'] ∧ ¬(path.take 3 = ['/', '/', '/']) then 2 else 1
      else 0
    let comps := splitChar '/' path
    let newComps := comps.foldl
      (fun acc comp =>
        if comp = [] ∨ comp = ['.'] then acc
        else if ¬(comp = ['.', '.']) ∨ (initialSlashes = 0 ∧ acc = []) ∨
            (¬(acc = []) ∧ acc.getLast? = some ['.', '.']) then acc ++ [comp]
        else if ¬(acc = []) then acc.dropLast
        else acc) []
    let joined := List.replicate initialSlashes '/' ++ List.intercalate ['/'] newComps
    if joined = [] then ['.'] else joined

/-- The `basename_notext` loop body repeated until `splitext` reports an
empty extension (source lines 228-234), by well-founded recursion on the
length of the remaining name. -/
def strip_all_ext (p : PyStr) : PyStr :=
  if h : (splitext p).2 = [] then (splitext p).1
  else strip_all_ext (splitext p).1
termination_by p.length
decreasing_by
  have hb : ∀ (c : Char) (l : PyStr) (i : Nat), rfindIdx c l = some i → i < l.length := by
    intro c l
    induction l with
    | nil => intro i hi; simp [rfindIdx] at hi
    | cons a rest ih =>
      intro i hi
      simp only [rfindIdx] at hi
      rcases hr : rfindIdx c rest with _ | j
      · rw [hr] at hi
        by_cases ha : a = c
        · simp only [ha, if_pos rfl] at hi
          cases hi
          simp
        · simp [ha] at hi
      · rw [hr] at hi
        cases hi
        have := ih j hr
        simp only [List.length_cons]
        omega
  rcases hd : rfindIdx '.' p with _ | d
  · simp only [splitext, hd] at h
    exact absurd trivial h
  · simp only [splitext, hd] at h ⊢
    by_cases hc : splitextCond p d
    · simp only [hc, if_pos] at h ⊢
      have hdl := hb '.' p d hd
      simp only [List.length_take]
      omega
    · simp [hc] at h

/-- Fuel-indexed transcription of the unbounded `while True` loop in
`basename_notext`: `none` means the iteration bound was hit before the
loop returned. -/
def strip_all_ext_fuel : Nat → PyStr → Option PyStr
  | 0, _ => none
  | f + 1, p =>
    if (splitext p).2 = [] then some (splitext p).1
    else strip_all_ext_fuel f (splitext p).1

/-- Source `basename_notext`: base name of the path with every extension
stripped. -/
def basename_notext (path : PyStr) : PyStr :=
  strip_all_ext (pyBasename path)

/- Source `normalize_ws`, i.e. `re.sub(r'\s+', ' ', s)`, as a two-state
scanner: the first whitespace character of a run becomes one space and the
rest of the run is skipped. -/
mutual
def nwsEmit : PyStr → PyStr
  | [] => []
  | c :: rest => if pyIsSpace c then ' ' :: nwsSkip rest else c :: nwsEmit rest
def nwsSkip : PyStr → PyStr
  | [] => []
  | c :: rest => if pyIsSpace c then nwsSkip rest else c :: nwsEmit rest
end

/-- Source `normalize_ws`. -/
def normalize_ws (s : PyStr) : PyStr := nwsEmit s

/-- The one fixed TEI namespace (source constant `NS`). -/
def NS : PyStr := "http://www.tei-c.org/ns/1.0".data

/-- Source `ns`: qualify a bare tag name, `'{%s}%s' % (NS, name)`. -/
def ns (name : PyStr) : PyStr := '{' :: (NS ++ ('}' :: name))

/-- Source `strip_ns`: `name.split('}')[1]`.  Indexing a one-element split
raises `IndexError` in Python, modelled as `none`. -/
def strip_ns (name : PyStr) : Option PyStr := (splitChar '}' name)[1]?

/-- Total wrapper for `strip_ns` used inside the renderer; it agrees with
the source wherever the source does not raise (every name containing a
closing brace), and theorems about the renderer restrict to that domain. -/
def stripNsD (name : PyStr) : PyStr := (strip_ns name).getD []

/-- TEI element: tag (fully qualified), attributes, leaf text, children.
Mirrors the `xml.etree` element data accessed by the source. -/
inductive Elem where
  | mk (tag : PyStr) (attrib : List (PyStr × PyStr)) (text : Option PyStr) (children : List Elem)

/- Decidable equality for the nested `Elem` tree (the deriving handler
does not support nested inductives). -/
mutual
def elemDecEq : (x y : Elem) → Decidable (x = y)
  | .mk t1 a1 x1 c1, .mk t2 a2 x2 c2 =>
    if h1 : t1 = t2 then
      if h2 : a1 = a2 then
        if h3 : x1 = x2 then
          match elemListDecEq c1 c2 with
          | isTrue h4 => isTrue (by rw [h1, h2, h3, h4])
          | isFalse h4 => isFalse (fun hh => h4 (by injection hh))
        else isFalse (fun hh => h3 (by injection hh))
      else isFalse (fun hh => h2 (by injection hh))
    else isFalse (fun hh => h1 (by injection hh))
def elemListDecEq : (l1 l2 : List Elem) → Decidable (l1 = l2)
  | [], [] => isTrue rfl
  | [], _ :: _ => isFalse (by simp)
  | _ :: _, [] => isFalse (by simp)
  | x :: xs, y :: ys =>
    match elemDecEq x y, elemListDecEq xs ys with
    | isTrue h1, isTrue h2 => isTrue (by rw [h1, h2])
    | isFalse h1, _ => isFalse (fun hh => h1 (by injection hh))
    | _, isFalse h2 => isFalse (fun hh => h2 (by injection hh))
end

instance : DecidableEq Elem := elemDecEq

def Elem.tag : Elem → PyStr
  | .mk t _ _ _ => t

def Elem.attrib : Elem → List (PyStr × PyStr)
  | .mk _ a _ _ => a

def Elem.text : Elem → Option PyStr
  | .mk _ _ tx _ => tx

def Elem.children : Elem → List Elem
  | .mk _ _ _ ch => ch

/- All proper descendants of an element in document (preorder) order,
matching `ElementTree` iteration under a `//` path step. -/
mutual
def descendants : Elem → List Elem
  | .mk _ _ _ ch => descList ch
def descList : List Elem → List Elem
  | [] => []
  | c :: rest => c :: (descendants c ++ descList rest)
end

/-- One step of the fixed `ElementPath` query language used by the source
header paths: a qualified child tag, a `*[@attr]` child filter, a
`//*[@attr]` descendant filter, or a `//tag` descendant tag step. -/
inductive QStep where
  | child (t : PyStr)
  | childWithAttr (a : PyStr)
  | descWithAttr (a : PyStr)
  | descTag (t : PyStr)

def hasAttr (e : Elem) (a : PyStr) : Bool := (pyGet e.attrib a).isSome

def stepAll (e : Elem) : QStep → List Elem
  | .child t => e.children.filter (fun c => c.tag = t)
  | .childWithAttr a => e.children.filter (fun c => hasAttr c a)
  | .descWithAttr a => (descendants e).filter (fun c => hasAttr c a)
  | .descTag t => (descendants e).filter (fun c => c.tag = t)

/-- `element.findall(path)` for the path fragments above, in document
order. -/
def findallQ (e : Elem) (ps : List QStep) : List Elem :=
  ps.foldl (fun acc s => acc.flatMap (fun x => stepAll x s)) [e]

/-- `element.find(path)`: first match or `None`. -/
def findQ (e : Elem) (ps : List QStep) : Option Elem := (findallQ e ps).head?

/-- Source helper `text(parent, path)`: text of the first match when the
element exists and its text is truthy, else the empty string. -/
def textQ (parent : Elem) (path : List QStep) : PyStr :=
  match findQ parent path with
  | some el =>
    match el.text with
    | some t => if t = [] then [] else t
    | none => []
  | none => []

/-- Source helper `attr(parent, path, attr_name)`: the attribute of the
first match with `''` default, or `''` when nothing matches. -/
def attrQ (parent : Elem) (path : List QStep) (a : PyStr) : PyStr :=
  match findQ parent path with
  | some el => (pyGet el.attrib a).getD []
  | none => []

def teiHeaderS : PyStr := "teiHeader".data
def entryS : PyStr := "entry".data
def TAG_HEADER : PyStr := ns teiHeaderS
def TAG_ENTRY : PyStr := ns entryS
def TAG_INCLUDE : PyStr := '{' :: ("http://www.w3.org/2001/XInclude".data ++ ('}' :: "include".data))

def targetS : PyStr := "target".data
def hrefS : PyStr := "href".data
def typeS : PyStr := "type".data
def classS : PyStr := "class".data

def labelS : PyStr := "label".data
def editionS : PyStr := "edition".data
def sourceS : PyStr := "source".data
def originS : PyStr := "origin".data
def uriS : PyStr := "uri".data
def licNameS : PyStr := "license.name".data
def licUrlS : PyStr := "license.url".data
def copyrightS : PyStr := "copyright".data

def TITLE : List QStep :=
  [.child (ns ("fileDesc".data)), .child (ns ("titleStmt".data)), .child (ns ("title".data))]
def EDITION : List QStep :=
  [.child (ns ("fileDesc".data)), .child (ns ("editionStmt".data)), .child (ns ("edition".data))]
def PUB_PLACE_REF : List QStep :=
  [.child (ns ("fileDesc".data)), .child (ns ("publicationStmt".data)),
   .child (ns ("pubPlace".data)), .childWithAttr targetS]
def ORIGIN_REF : List QStep :=
  [.child (ns ("fileDesc".data)), .child (ns ("sourceDesc".data)), .descWithAttr targetS]
def LICENSE_REF : List QStep :=
  [.child (ns ("fileDesc".data)), .child (ns ("publicationStmt".data)),
   .child (ns ("availability".data)), .child (ns ("p".data)), .childWithAttr targetS]
def COPYRIGHT : List QStep :=
  [.child (ns ("fileDesc".data)), .child (ns ("publicationStmt".data)),
   .child (ns ("availability".data)), .child (ns ("p".data))]

/-- Metadata tag, source namedtuple `Tag(name, value)`. -/
structure Tag where
  name : PyStr
  value : PyStr

deriving instance DecidableEq, Repr for Tag

/-- Source `TEI._parse_header`, in yield order.  `input_file` is the
`TEI` instance's input file path used for the derived `uri` tag. -/
def tei_parse_header (input_file : PyStr) (element : Elem) : List Tag :=
  let source := attrQ element PUB_PLACE_REF targetS
  let noext := basename_notext input_file
  let uri := if source = [] then noext else pyRstrip '/' source ++ ('/' :: noext)
  [⟨labelS, textQ element TITLE⟩,
   ⟨editionS, textQ element EDITION⟩,
   ⟨sourceS, source⟩,
   ⟨originS, attrQ element ORIGIN_REF targetS⟩,
   ⟨uriS, uri⟩,
   ⟨licNameS, normalize_ws (textQ element LICENSE_REF)⟩,
   ⟨licUrlS, attrQ element LICENSE_REF targetS⟩,
   ⟨copyrightS, normalize_ws (textQ element COPYRIGHT)⟩]

/-- Rendered HTML element: tag, attributes, leaf text, children. -/
inductive HNode where
  | mk (tag : PyStr) (attrs : List (PyStr × PyStr)) (text : Option PyStr) (children : List HNode)

def HNode.tag : HNode → PyStr
  | .mk t _ _ _ => t

def HNode.attrs : HNode → List (PyStr × PyStr)
  | .mk _ a _ _ => a

def HNode.text : HNode → Option PyStr
  | .mk _ _ tx _ => tx

def HNode.children : HNode → List HNode
  | .mk _ _ _ ch => ch

/-- `etree.SubElement(parent, ...)`: append one child. -/
def HNode.appendChild : HNode → HNode → HNode
  | .mk t a tx ch, c => .mk t a tx (ch ++ [c])

/-- In-place update of the element at one index, modelling mutation of an
element already appended to its parent. -/
def modifyIdx : List HNode → Nat → (HNode → HNode) → List HNode
  | [], _, _ => []
  | a :: rest, 0, f => f a :: rest
  | a :: rest, n + 1, f => a :: modifyIdx rest n f

def htmlS : PyStr := "html".data
def headS : PyStr := "head".data
def bodyS : PyStr := "body".data
def scriptS : PyStr := "script".data
def linkS : PyStr := "link".data
def olS : PyStr := "ol".data
def liS : PyStr := "li".data
def divS : PyStr := "div".data
def singleSuffix : PyStr := " single".data

def link1 : HNode :=
  .mk linkS
    [("rel".data, "stylesheet".data),
     ("type".data, "text/css".data),
     ("href".data, "~/css/default.css".data)] none []

def link2 : HNode :=
  .mk linkS
    [("rel".data, "alternate stylesheet".data),
     ("type".data, "text/css".data),
     ("title".data, "Night".data),
     ("href".data, "~/css/night.css".data)] none []

def scriptNode : HNode :=
  .mk scriptS [("src".data, "~/js/styleswitcher.js".data)] none []

/-- Source `TEI.mk_entry_root`: an `html` root whose first child is `head`
holding the two stylesheet links, and whose second child is the `script`
element (`SubElement(root, 'script', ...)` appends to the root, not to
`head`). -/
def mk_entry_root : HNode :=
  .mk htmlS [] none [.mk headS [] none [link1, link2], scriptNode]

/-- The fixed grouping set `('sense', 'cit', 'quote')`. -/
def groupingTags : List PyStr := ["sense".data, "cit".data, "quote".data]

/-- Truthy `type` attribute contribution to the class list. -/
def typeTruthy (c : Elem) : List PyStr :=
  match pyGet c.attrib typeS with
  | some t => if t = [] then [] else [t]
  | none => []

/-- Computed class attribute `' '.join(classes).strip()` of one child. -/
def clsOf (c : Elem) : PyStr :=
  pyStripWS (List.intercalate [' '] (stripNsD c.tag :: typeTruthy c))

/-- The `ol.attrib['class'] += ' single'` update. -/
def addSingle : HNode → HNode
  | .mk t a tx ch =>
    .mk t (a.map (fun p => if p.1 = classS then (p.1, p.2 ++ singleSuffix) else p)) tx ch

def childCountAt (l : List HNode) (i : Nat) : Nat :=
  ((l[i]?).map (fun n => n.children.length)).getD 0

/-- The final loop of `mk_html_element`: every grouping list that ended up
with exactly one item gets the `single` class token appended. -/
def applySingles (out : List HNode) (lists : List (PyStr × Nat)) : List HNode :=
  lists.foldl
    (fun acc p => if childCountAt acc p.2 = 1 then modifyIdx acc p.2 addSingle else acc) out

/- Source `TEI.mk_html_element`, returning the children it appends to
`html_parent`.  `renderFold` is the `for child in element` loop carried
over the appended-so-far children and the `lists` registry mapping a
grouping tag to the index of its `ol` in the output. -/
mutual
def mk_html_element : Elem → List HNode
  | .mk _ _ _ ch =>
    let r := renderFold ch [] []
    applySingles r.1 r.2
def renderFold : List Elem → List HNode → List (PyStr × Nat) → List HNode × List (PyStr × Nat)
  | [], out, lists => (out, lists)
  | c :: rest, out, lists =>
    if stripNsD c.tag ∈ groupingTags then
      match pyGet lists (stripNsD c.tag) with
      | some i =>
        renderFold rest
          (modifyIdx out i
            (fun n => n.appendChild (HNode.mk liS [(classS, clsOf c)] c.text (mk_html_element c))))
          lists
      | none =>
        renderFold rest
          (out ++ [HNode.mk olS [(classS, stripNsD c.tag)] none
            [HNode.mk liS [(classS, clsOf c)] c.text (mk_html_element c)]])
          (lists ++ [(stripNsD c.tag, out.length)])
    else
      renderFold rest
        (out ++ [HNode.mk divS [(classS, clsOf c)] c.text (mk_html_element c)]) lists
end

/-- Rendered list item of one grouping child. -/
def liOf (c : Elem) : HNode := .mk liS [(classS, clsOf c)] c.text (mk_html_element c)

/-- Rendered block element of one non-grouping child. -/
def divOf (c : Elem) : HNode := .mk divS [(classS, clsOf c)] c.text (mk_html_element c)

/-- A grouping ordered list holding the renderings of children `cs`. -/
def olNode (g : PyStr) (cs : List Elem) : HNode :=
  .mk olS [(classS, g)] none (cs.map liOf)

/-- A grouping ordered list after the `single` fix-up. -/
def olFinal (g : PyStr) (cs : List Elem) : HNode :=
  .mk olS [(classS, if cs.length = 1 then g ++ singleSuffix else g)] none (cs.map liOf)

def ARTICLE_CONTENT_TYPE : PyStr := "text/html;charset=utf-8".data

/-- Content item, source namedtuple `Content(text, keys, type)`; `text`
holds the rendered tree standing for its UTF-8 HTML serialization. -/
structure Content where
  text : HNode
  keys : List PyStr
  type : PyStr

/-- The headword query `./t:form//t:orth`. -/
def ORTH_PATH : List QStep := [.child (ns ("form".data)), .descTag (ns ("orth".data))]

def orthElements (e : Elem) : List Elem := findallQ e ORTH_PATH

/-- Truthy text of one matched `orth` element. -/
def truthyText (o : Elem) : Option PyStr :=
  match o.text with
  | some t => if t = [] then none else some t
  | none => none

/-- The list comprehension `[orth.text for orth in orths if orth.text]`. -/
def orthTexts (e : Elem) : List PyStr := (orthElements e).filterMap truthyText

/-- Source `TEI._parse_entry`: one Content per entry, keys from the
headword query, body filled by the recursive renderer. -/
def tei_parse_entry (element : Elem) : List Content :=
  [⟨mk_entry_root.appendChild (HNode.mk bodyS [] none (mk_html_element element)),
    orthTexts element, ARTICLE_CONTENT_TYPE⟩]

/-- One item of the lazy output stream of `TEI.__iter__`. -/
inductive OutItem where
  | tag (t : Tag)
  | content (c : Content)

def isContent : OutItem → Bool
  | .content _ => true
  | .tag _ => false

/-- Fatal walker outcomes: the duplicate-inclusion `Exception` of the
source, and the underlying parser's error on an unreadable file. -/
inductive WalkError where
  | duplicateInclude (path : PyStr)
  | missingFile (path : PyStr)

deriving instance DecidableEq, Repr for WalkError

/-- Message of the duplicate-inclusion exception,
`'{} is included multiple times. Stopping to avoid infinite loop due to circular includes.'.format(include_file)`. -/
def errMsg : WalkError → PyStr
  | .duplicateInclude p =>
    p ++ " is included multiple times. Stopping to avoid infinite loop due to circular includes.".data
  | .missingFile p => p

/-- Resolution of an inclusion href against the original input file's
directory (source lines 182-184). -/
def resolveInc (input_file href : PyStr) : PyStr :=
  pyJoin (pyDirname input_file) href

/-- The `for _, element in etree.iterparse(current_file)` dispatch loop of
`TEI.__iter__` over the completed elements of one file: header and entry
subtrees produce output items, inclusion directives are checked against
the processed-set and queued.  Returns the items yielded before any
error, the pushed include paths in discovery order, and the error if one
was raised. -/
def streamFile (input_file : PyStr) (done : List PyStr) :
    List Elem → List OutItem × List PyStr × Option WalkError
  | [] => ([], [], none)
  | e :: rest =>
    let hdrOuts := if e.tag = TAG_HEADER then (tei_parse_header input_file e).map OutItem.tag else []
    let entOuts := if e.tag = TAG_ENTRY then (tei_parse_entry e).map OutItem.content else []
    if e.tag = TAG_INCLUDE then
      let f := resolveInc input_file ((pyGet e.attrib hrefS).getD [])
      if f ∈ done then (hdrOuts ++ entOuts, [], some (.duplicateInclude f))
      else
        let r := streamFile input_file done rest
        (hdrOuts ++ entOuts ++ r.1, f :: r.2.1, r.2.2)
    else
      let r := streamFile input_file done rest
      (hdrOuts ++ entOuts ++ r.1, r.2.1, r.2.2)

/-- The `while todo_files` loop of `TEI.__iter__` over a modelled file
system (paths to parsed element streams), with `fuel` bounding the number
of files popped; `none` means the bound was hit.  `todo_files.pop()` pops
the last element; the popped path is normalized and added to the
processed-set before the file is streamed. -/
def walkAux (fs : List (PyStr × List Elem)) (input_file : PyStr) :
    Nat → List PyStr → List PyStr → Option (List OutItem × Option WalkError)
  | 0, _, _ => none
  | fuel + 1, todo, done =>
    match todo.getLast? with
    | none => some ([], none)
    | some last =>
      let current := pyNormpath last
      let done1 := current :: done
      match pyGet fs current with
      | none => some ([], some (.missingFile current))
      | some items =>
        let r := streamFile input_file done1 items
        match r.2.2 with
        | some err => some (r.1, some err)
        | none =>
          match walkAux fs input_file fuel (todo.dropLast ++ r.2.1) done1 with
          | none => none
          | some (o, e2) => some (r.1 ++ o, e2)

/-- Source `TEI.__iter__` over a modelled file system. -/
def walk (fs : List (PyStr × List Elem)) (input_file : PyStr) (fuel : Nat) :
    Option (List OutItem × Option WalkError) :=
  walkAux fs input_file fuel [input_file] []

/-- Leading-character whitespace test (`true` on the empty string). -/
def firstNotWS : PyStr → Bool
  | [] => true
  | c :: _ => !pyIsSpace c

/-- No two adjacent whitespace characters. -/
def noAdjWS : PyStr → Bool
  | [] => true
  | [_] => true
  | a :: b :: rest => (!(pyIsSpace a && pyIsSpace b)) && noAdjWS (b :: rest)

/-- No two adjacent space characters. -/
def noAdjSpace : PyStr → Bool
  | [] => true
  | [_] => true
  | a :: b :: rest => (!(a = ' ' && b = ' ')) && noAdjSpace (b :: rest)

/-- Every whitespace character is a plain space. -/
def wsOnlySpace (s : PyStr) : Bool := s.all (fun c => !pyIsSpace c || c = ' ')

/-- The class-attribute invariant claimed by the specification: non-empty,
no leading or trailing whitespace, no doubled spaces. -/
def isNormClass (s : PyStr) : Bool :=
  !s.isEmpty && firstNotWS s && firstNotWS s.reverse && noAdjSpace s

/-- A usable class token: non-empty and whitespace-free. -/
def goodToken (s : PyStr) : Bool := !s.isEmpty && s.all (fun c => !pyIsSpace c)

/-- The `type` attribute, when present and truthy, is whitespace-free. -/
def typeOk (a : List (PyStr × PyStr)) : Bool :=
  match pyGet a typeS with
  | some t => t.isEmpty || t.all (fun c => !pyIsSpace c)
  | none => true

/- Well-formedness of an element subtree for the class-attribute claim:
every local tag name is a usable token and every truthy `type` attribute
is whitespace-free. -/
mutual
def allGood : Elem → Bool
  | .mk t a _ ch => goodToken (stripNsD t) && typeOk a && allGoodList ch
def allGoodList : List Elem → Bool
  | [] => true
  | c :: rest => allGood c && allGoodList rest
end

/- Domain on which the total `stripNsD` agrees with the source `strip_ns`:
every tag in the subtree contains a closing brace (as every
namespace-qualified tag does; on other tags the Python code raises). -/
mutual
def allBraced : Elem → Bool
  | .mk t _ _ ch => t.contains '}' && allBracedList ch
def allBracedList : List Elem → Bool
  | [] => true
  | c :: rest => allBraced c && allBracedList rest
end

/- Every class attribute value appearing anywhere in a rendered tree. -/
mutual
def classValues : HNode → List PyStr
  | .mk _ attrs _ ch =>
    (attrs.filterMap (fun p => if p.1 = classS then some p.2 else none)) ++ classValuesList ch
def classValuesList : List HNode → List PyStr
  | [] => []
  | n :: rest => classValues n ++ classValuesList rest
end

/-- Class attribute of a rendered element (empty when absent). -/
def classAttr (n : HNode) : PyStr := (pyGet n.attrs classS).getD []

/-- First space-separated token of a class attribute value. -/
def firstTok (s : PyStr) : PyStr := ((splitChar ' ' s).head?).getD []

/-- The ordered lists of one grouping tag among a scope's rendered
children. -/
def olWithHead (g : PyStr) (n : HNode) : Bool :=
  n.tag == olS && firstTok (classAttr n) == g

/-- Children of a processed prefix bearing one grouping tag. -/
def gchildrenL (P : List Elem) (g : PyStr) : List Elem :=
  P.filter (fun c => stripNsD c.tag == g)

/-- Children of a parent scope bearing one grouping tag, in document
order. -/
def gchildren (e : Elem) (g : PyStr) : List Elem := gchildrenL e.children g

/-- The per-list effect of the `single` fix-up loop. -/
def fixSingle (n : HNode) : HNode :=
  if n.children.length = 1 then addSingle n else n

/-- Loop invariant of `renderFold` after processing the children `P`:
registry keys and indices are distinct; every registered index holds the
ordered list of its grouping tag, carrying exactly the matching children
of `P` in order; grouping tags without a registry entry have no matching
child; and every unregistered output position holds the block rendering
of some non-grouping child. -/
def RInv (P : List Elem) (out : List HNode) (lists : List (PyStr × Nat)) : Prop :=
  List.Pairwise (fun p q => p.1 ≠ q.1 ∧ p.2 ≠ q.2) lists ∧
  (∀ p ∈ lists, p.1 ∈ groupingTags ∧ gchildrenL P p.1 ≠ [] ∧
    out[p.2]? = some (olNode p.1 (gchildrenL P p.1))) ∧
  (∀ g ∈ groupingTags, (∀ p ∈ lists, p.1 ≠ g) → gchildrenL P g = []) ∧
  (∀ j, j < out.length → (∀ p ∈ lists, p.2 ≠ j) →
    ∃ c ∈ P, out[j]? = some (divOf c) ∧ stripNsD c.tag ∉ groupingTags)

/-- A modelled inclusion directive element. -/
def incElem (href : PyStr) : Elem := .mk TAG_INCLUDE [(hrefS, href)] none []

/-- A minimal modelled entry element. -/
def entryElem : Elem := .mk TAG_ENTRY [] none []

/-- File system with a circular inclusion: `A.xml` includes `B.xml`,
which includes `A.xml` again. -/
def fsCycle : List (PyStr × List Elem) :=
  [("A.xml".data, [incElem ("B.xml".data)]), ("B.xml".data, [incElem ("A.xml".data)])]

/-- File system in which `A.xml` includes the unrelated `B.xml` twice and
`B.xml` holds one entry. -/
def fsDup : List (PyStr × List Elem) :=
  [("A.xml".data, [incElem ("B.xml".data), incElem ("B.xml".data)]),
   ("B.xml".data, [entryElem])]

/-- Entry with two `sense` children and one non-grouping child. -/
def entryTwoSenses : Elem :=
  .mk (ns entryS) [] none
    [.mk (ns ("sense".data)) [] none [], .mk (ns ("sense".data)) [] none [],
     .mk (ns ("gramGrp".data)) [] none []]

/-- Entry whose child carries a `type` attribute with an internal doubled
space. -/
def entryBadType : Elem :=
  .mk (ns entryS) [] none [.mk (ns ("b".data)) [(typeS, "a  b".data)] none []]

/-- Header subtree matching none of the extraction paths. -/
def emptyHeader : Elem := .mk (ns teiHeaderS) [] none []

/-- Header subtree whose publication-place reference carries the target
`http://example.org/`. -/
def exampleHeader : Elem :=
  .mk (ns teiHeaderS) [] none
    [.mk (ns ("fileDesc".data)) [] none
      [.mk (ns ("publicationStmt".data)) [] none
        [.mk (ns ("pubPlace".data)) [] none
          [.mk (ns ("ref".data)) [(targetS, "http://example.org/".data)] none []]]]]

/-! ### Helper lemmas: paths and extensions -/

theorem rfindIdx_lt_length (c : Char) (l : PyStr) (i : Nat) (h : rfindIdx c l = some i) :
    i < l.length := by
  induction l generalizing i with
  | nil => simp [rfindIdx] at h
  | cons a rest ih =>
    simp only [rfindIdx] at h
    rcases hr : rfindIdx c rest with _ | j
    · rw [hr] at h
      by_cases ha : a = c
      · simp only [ha, if_pos rfl] at h
        cases h
        simp
      · simp [ha] at h
    · rw [hr] at h
      cases h
      have := ih j hr
      simp only [List.length_cons]
      omega

theorem splitext_shrink (p : PyStr) :
    (splitext p).2 = [] ∨ (splitext p).1.length < p.length := by
  rcases hd : rfindIdx '.' p with _ | d
  · left
    simp [splitext, hd]
  · by_cases hc : splitextCond p d
    · right
      simp only [splitext, hd, hc, if_pos]
      have := rfindIdx_lt_length '.' p d hd
      simp only [List.length_take]
      omega
    · left
      simp [splitext, hd, hc]

theorem strip_all_ext_fuel_spec :
    ∀ (f : Nat) (p : PyStr), p.length < f →
      strip_all_ext_fuel f p = some (strip_all_ext p) := by
  intro f
  induction f with
  | zero => intro p hp; omega
  | succ f ih =>
    intro p hp
    rw [strip_all_ext_fuel, strip_all_ext]
    by_cases h : (splitext p).2 = []
    · simp [h]
    · simp only [h, if_false, dif_neg, not_false_iff]
      rcases splitext_shrink p with h2 | h2
      · exact absurd h2 h
      · exact ih _ (by omega)

theorem strip_all_ext_eval (p r : PyStr)
    (h : strip_all_ext_fuel (p.length + 1) p = some r) : strip_all_ext p = r := by
  have h2 := strip_all_ext_fuel_spec (p.length + 1) p (by omega)
  rw [h2] at h
  exact Option.some.inj h

/-! ### Helper lemmas: splitting on a separator -/

theorem splitChar_no_sep (sep : Char) (l : PyStr) (h : sep ∉ l) : splitChar sep l = [l] := by
  induction l with
  | nil => rfl
  | cons c rest ih =>
    have hc : ¬(c = sep) := by
      intro hcc
      exact h (by simp [hcc])
    have hr : sep ∉ rest := fun hh => h (List.mem_cons_of_mem c hh)
    simp [splitChar, hc, ih hr]

theorem splitChar_append_no_sep (sep : Char) (a l : PyStr) (h : sep ∉ a) :
    ∀ p ps, splitChar sep l = p :: ps → splitChar sep (a ++ l) = (a ++ p) :: ps := by
  induction a with
  | nil =>
    intro p ps hl
    simpa using hl
  | cons c a ih =>
    intro p ps hl
    have hc : ¬(c = sep) := by
      intro hcc
      exact h (by simp [hcc])
    have ha : sep ∉ a := fun hh => h (List.mem_cons_of_mem c hh)
    have hres := ih ha p ps hl
    simp [splitChar, hc, hres]

/-- C9: for every valid local tag name (one containing no closing brace,
as every XML name does), `strip_ns (ns x) = x`: qualification followed by
prefix-stripping recovers the name exactly, with no error case on this
domain. -/
theorem c9_ns_strip_ns_inverse (x : PyStr) (hx : '}' ∉ x) : strip_ns (ns x) = some x := by
  have h1 : '}' ∉ ('{' :: NS) := by decide
  have h2 : splitChar '}' ('}' :: x) = [] :: [x] := by
    have := splitChar_no_sep '}' x hx
    simp [splitChar, this]
  have h3 : splitChar '}' (('{' :: NS) ++ ('}' :: x)) = (('{' :: NS) ++ []) :: [x] :=
    splitChar_append_no_sep '}' ('{' :: NS) ('}' :: x) h1 [] [x] h2
  have hns : ns x = ('{' :: NS) ++ ('}' :: x) := by simp [ns]
  rw [strip_ns, hns, h3]
  rfl

/-- Witness for C9 at the concrete local name `entry`. -/
theorem c9_ns_strip_ns_inverse_witness :
    ('}' ∉ entryS) ∧ strip_ns (ns entryS) = some entryS :=
  ⟨by decide, c9_ns_strip_ns_inverse entryS (by decide)⟩

/-! ### Helper lemmas: whitespace collapsing -/

theorem noAdjWS_cons (a : Char) (l : PyStr) (h1 : noAdjWS l = true)
    (h2 : pyIsSpace a = false ∨ firstNotWS l = true) : noAdjWS (a :: l) = true := by
  cases l with
  | nil => rfl
  | cons b r =>
    simp only [noAdjWS, Bool.and_eq_true, Bool.not_eq_true']
    refine ⟨?_, h1⟩
    rcases h2 with h2 | h2
    · simp [h2]
    · simp only [firstNotWS, Bool.not_eq_true'] at h2
      simp [h2]

theorem wsOnlySpace_cons (a : Char) (l : PyStr) (ha : pyIsSpace a = false ∨ a = ' ')
    (h : wsOnlySpace l = true) : wsOnlySpace (a :: l) = true := by
  simp only [wsOnlySpace, List.all_cons, Bool.and_eq_true] at h ⊢
  refine ⟨?_, h⟩
  rcases ha with ha | ha
  · simp [ha]
  · simp [ha]

theorem nws_props : ∀ (n : Nat) (s : PyStr), s.length ≤ n →
    (noAdjWS (nwsEmit s) = true ∧ wsOnlySpace (nwsEmit s) = true) ∧
    (firstNotWS (nwsSkip s) = true ∧ noAdjWS (nwsSkip s) = true ∧
      wsOnlySpace (nwsSkip s) = true) := by
  intro n
  induction n with
  | zero =>
    intro s hs
    have hnil : s = [] := List.length_eq_zero.mp (Nat.le_zero.mp hs)
    subst hnil
    exact ⟨⟨rfl, rfl⟩, rfl, rfl, rfl⟩
  | succ n ih =>
    intro s hs
    cases s with
    | nil => exact ⟨⟨rfl, rfl⟩, rfl, rfl, rfl⟩
    | cons c rest =>
      have hr : rest.length ≤ n := by
        simp only [List.length_cons] at hs
        omega
      obtain ⟨⟨e1, e2⟩, k1, k2, k3⟩ := ih rest hr
      by_cases hc : pyIsSpace c
      · refine ⟨?_, ?_⟩
        · rw [show nwsEmit (c :: rest) = ' ' :: nwsSkip rest from by simp [nwsEmit, hc]]
          exact ⟨noAdjWS_cons ' ' _ k2 (Or.inr k1), wsOnlySpace_cons ' ' _ (Or.inr rfl) k3⟩
        · rw [show nwsSkip (c :: rest) = nwsSkip rest from by simp [nwsSkip, hc]]
          exact ⟨k1, k2, k3⟩
      · have hcb : pyIsSpace c = false := by simpa using hc
        refine ⟨?_, ?_⟩
        · rw [show nwsEmit (c :: rest) = c :: nwsEmit rest from by simp [nwsEmit, hc]]
          exact ⟨noAdjWS_cons c _ e1 (Or.inl hcb), wsOnlySpace_cons c _ (Or.inl hcb) e2⟩
        · rw [show nwsSkip (c :: rest) = c :: nwsEmit rest from by simp [nwsSkip, hc]]
          exact ⟨by simp [firstNotWS, hcb], noAdjWS_cons c _ e1 (Or.inl hcb),
            wsOnlySpace_cons c _ (Or.inl hcb) e2⟩

/-- C5 (amended): `normalize_ws` collapses every whitespace run to a
single space (the result never holds two adjacent whitespace characters
and every whitespace character in it is a plain space), but it does not
trim: it maps `"  a\n\tb  "` to `" a b "`. -/
theorem c5_normalize_ws_collapses_without_trim :
    (∀ s : PyStr, noAdjWS (normalize_ws s) = true ∧ wsOnlySpace (normalize_ws s) = true) ∧
    normalize_ws ("  a\n\tb  ".data) = (" a b ".data) := by
  refine ⟨fun s => (nws_props s.length s le_rfl).1, by decide⟩

/-- C5 counterexample: on the input `"  a\n\tb  "` named by the claim,
`normalize_ws` returns `" a b "` with the boundary spaces kept, not the
trimmed `"a b"` the claim asserts. -/
theorem c5_normalize_ws_counterexample :
    normalize_ws ("  a\n\tb  ".data) = (" a b ".data) ∧
    ¬(normalize_ws ("  a\n\tb  ".data) = ("a b".data)) := by decide

/-- C10: the `while True` loop of `basename_notext` always terminates:
each `splitext` step either reports an empty extension (and the loop
returns) or strictly shortens the remaining name, so a fuel bound of one
more than the name's length always suffices and the fuel-indexed
transcription of the loop returns the well-founded function's value, for
`basename_notext` in particular. -/
theorem c10_basename_notext_terminates :
    (∀ p : PyStr, (splitext p).2 = [] ∨ (splitext p).1.length < p.length) ∧
    (∀ p : PyStr, strip_all_ext_fuel (p.length + 1) p = some (strip_all_ext p)) ∧
    (∀ path : PyStr,
      strip_all_ext_fuel ((pyBasename path).length + 1) (pyBasename path) =
        some (basename_notext path)) := by
  refine ⟨splitext_shrink, ?_, ?_⟩
  · intro p
    exact strip_all_ext_fuel_spec _ p (by omega)
  · intro path
    exact strip_all_ext_fuel_spec _ _ (by omega)

/-- C4: the `uri` metadata value is the input file's base name with all
extensions stripped (`basename_notext "dict.tei.xml" = "dict"`), prefixed
by the extracted `source` with trailing slashes removed and a slash when
`source` is non-empty, and the bare stripped name when `source` is empty;
with `source = "http://example.org/"` the uri is
`http://example.org/dict`. -/
theorem c4_uri_derivation :
    basename_notext ("dict.tei.xml".data) = ("dict".data) ∧
    (∀ (hdr : Elem) (inf : PyStr),
      (tei_parse_header inf hdr)[4]? =
        some ⟨uriS,
          if attrQ hdr PUB_PLACE_REF targetS = [] then basename_notext inf
          else pyRstrip '/' (attrQ hdr PUB_PLACE_REF targetS) ++ ('/' :: basename_notext inf)⟩) ∧
    (tei_parse_header ("dict.tei.xml".data) exampleHeader)[4]? =
      some ⟨uriS, ("http://example.org/dict".data)⟩ := by
  have hbn : basename_notext ("dict.tei.xml".data) = ("dict".data) :=
    strip_all_ext_eval _ _ (by decide)
  refine ⟨hbn, ?_, ?_⟩
  · intro hdr inf
    simp [tei_parse_header]
  · have hsrc : attrQ exampleHeader PUB_PLACE_REF targetS = ("http://example.org/".data) := by
      decide
    simp only [tei_parse_header, hsrc]
    rw [if_neg (by decide)]
    rw [hbn]
    decide

/-- C8: the header extractor is total and deterministic: it always yields
exactly the eight tags `label, edition, source, origin, uri,
license.name, license.url, copyright` in that order, and each
query-driven field whose path matches nothing resolves to the empty
string rather than an error (the `uri` field is derived from the input
file name, not from a query path). -/
theorem c8_header_extractor_total (hdr : Elem) (inf : PyStr) :
    (tei_parse_header inf hdr).map Tag.name =
      [labelS, editionS, sourceS, originS, uriS, licNameS, licUrlS, copyrightS] ∧
    (findQ hdr TITLE = none → (tei_parse_header inf hdr)[0]? = some ⟨labelS, []⟩) ∧
    (findQ hdr EDITION = none → (tei_parse_header inf hdr)[1]? = some ⟨editionS, []⟩) ∧
    (findQ hdr PUB_PLACE_REF = none → (tei_parse_header inf hdr)[2]? = some ⟨sourceS, []⟩) ∧
    (findQ hdr ORIGIN_REF = none → (tei_parse_header inf hdr)[3]? = some ⟨originS, []⟩) ∧
    (findQ hdr LICENSE_REF = none →
      (tei_parse_header inf hdr)[5]? = some ⟨licNameS, []⟩ ∧
      (tei_parse_header inf hdr)[6]? = some ⟨licUrlS, []⟩) ∧
    (findQ hdr COPYRIGHT = none → (tei_parse_header inf hdr)[7]? = some ⟨copyrightS, []⟩) := by
  refine ⟨by simp [tei_parse_header], ?_, ?_, ?_, ?_, ?_, ?_⟩
  · intro h
    simp [tei_parse_header, textQ, h]
  · intro h
    simp [tei_parse_header, textQ, h]
  · intro h
    simp [tei_parse_header, attrQ, h]
  · intro h
    simp [tei_parse_header, attrQ, h]
  · intro h
    constructor
    · simp [tei_parse_header, textQ, h, normalize_ws, nwsEmit]
    · simp [tei_parse_header, attrQ, h]
  · intro h
    simp [tei_parse_header, textQ, h, normalize_ws, nwsEmit]

/-- Witness for C8 at a header subtree matching none of the paths. -/
theorem c8_header_extractor_total_witness :
    (tei_parse_header [] emptyHeader)[0]? = some ⟨labelS, []⟩ ∧
    (tei_parse_header [] emptyHeader)[2]? = some ⟨sourceS, []⟩ ∧
    (tei_parse_header [] emptyHeader)[5]? = some ⟨licNameS, []⟩ ∧
    (tei_parse_header [] emptyHeader)[7]? = some ⟨copyrightS, []⟩ :=
  ⟨(c8_header_extractor_total emptyHeader []).2.1 (by rfl),
   (c8_header_extractor_total emptyHeader []).2.2.2.1 (by rfl),
   ((c8_header_extractor_total emptyHeader []).2.2.2.2.2.1 (by rfl)).1,
   (c8_header_extractor_total emptyHeader []).2.2.2.2.2.2 (by rfl)⟩

/-! ### Helper lemmas: document order of the headword query -/

theorem sublist_flatMap {α β : Type} (f g : α → List β) {l₁ l₂ : List α}
    (hs : l₁.Sublist l₂) (hf : ∀ a, (f a).Sublist (g a)) :
    (l₁.flatMap f).Sublist (l₂.flatMap g) := by
  induction hs with
  | slnil => simp
  | cons a hs ih =>
    rw [List.flatMap_cons]
    exact ih.trans (List.sublist_append_right _ _)
  | cons₂ a hs ih =>
    rw [List.flatMap_cons, List.flatMap_cons]
    exact List.Sublist.append (hf a) ih

theorem descList_eq_flatMap (l : List Elem) :
    descList l = l.flatMap (fun c => c :: descendants c) := by
  induction l with
  | nil => rfl
  | cons c rest ih => simp [descList, ih]

theorem orthElements_sublist (e : Elem) : (orthElements e).Sublist (descendants e) := by
  cases e with
  | mk t a tx ch =>
    have h1 : (ch.filter (fun c => c.tag = ns ("form".data))).Sublist ch :=
      List.filter_sublist ch
    have h2 : ∀ f : Elem,
        ((descendants f).filter (fun c => c.tag = ns ("orth".data))).Sublist
          (f :: descendants f) :=
      fun f => (List.filter_sublist (descendants f)).trans (List.sublist_cons_self f _)
    have h3 : (orthElements (Elem.mk t a tx ch)) =
        (ch.filter (fun c => decide (c.tag = ns ("form".data)))).flatMap
          (fun f => (descendants f).filter (fun c => decide (c.tag = ns ("orth".data)))) := by
      simp [orthElements, findallQ, ORTH_PATH, stepAll, Elem.children]
    rw [h3, show descendants (Elem.mk t a tx ch) = descList ch from rfl, descList_eq_flatMap]
    exact sublist_flatMap _ _ h1 h2

/-- C3: the entry transformer always emits exactly one Content; its keys
are the truthy texts of the elements matched by the `./t:form//t:orth`
query, kept in query (document) order — the matched elements form a
sublist of the entry's preorder descendant sequence — and an entry with
no matched headword still yields its single Content with an empty keys
sequence. -/
theorem c3_entry_content (e : Elem) :
    tei_parse_entry e =
      [⟨mk_entry_root.appendChild (HNode.mk bodyS [] none (mk_html_element e)),
        (orthElements e).filterMap truthyText, ARTICLE_CONTENT_TYPE⟩] ∧
    (orthElements e).Sublist (descendants e) ∧
    (orthElements e = [] → ∃ c, tei_parse_entry e = [c] ∧ c.keys = []) := by
  refine ⟨rfl, orthElements_sublist e, ?_⟩
  intro h
  refine ⟨_, rfl, ?_⟩
  show orthTexts e = []
  rw [orthTexts, h]
  rfl

/-- Witness for C3 at an entry with no headword elements. -/
theorem c3_entry_content_witness :
    orthElements entryElem = [] ∧
    ∃ c, tei_parse_entry entryElem = [c] ∧ c.keys = [] :=
  ⟨rfl, (c3_entry_content entryElem).2.2 rfl⟩

/-- C6 counterexample: in the skeleton built by `mk_entry_root` the
`head` element holds only the two stylesheet links — no script — while
the script element is the second child of the `html` root itself, so the
claim that `head` contains the script reference is false. -/
theorem c6_skeleton_counterexample :
    (HNode.children mk_entry_root).map HNode.tag = [headS, scriptS] ∧
    ((HNode.children mk_entry_root).head?.map
      (fun h => (HNode.children h).map HNode.tag)) = some [linkS, linkS] ∧
    ((HNode.children mk_entry_root).head?.map
      (fun h => (HNode.children h).any (fun n => n.tag == scriptS))) = some false := by
  exact ⟨rfl, rfl, rfl⟩

/-- C6 (amended): every rendered entry is an `html` root whose `head`
child holds exactly the two fixed stylesheet links (default, and the
alternate titled Night), whose second child is the fixed script
reference (a sibling of `head`, not inside it), and whose `body` child
receives the recursive rendering of the entry's children. -/
theorem c6_entry_skeleton (e : Elem) :
    tei_parse_entry e =
      [⟨HNode.mk htmlS [] none
          [HNode.mk headS [] none [link1, link2], scriptNode,
           HNode.mk bodyS [] none (mk_html_element e)],
        orthTexts e, ARTICLE_CONTENT_TYPE⟩] := rfl

/-- C2 counterexample: a document that includes the same unrelated file
`B.xml` twice is not rejected: the walk finishes without any error and
the entry of `B.xml` is emitted twice (the file is silently processed
again), contradicting the claimed fatal duplicate-inclusion error. -/
theorem c2_duplicate_include_counterexample :
    (walk fsDup ("A.xml".data) 10).map (fun r => (r.2, (r.1.filter isContent).length)) =
      some (none, 2) := rfl

/-- C2 (amended): an inclusion directive resolving to a file that has
already been popped and processed aborts the walk with the fatal error
naming that file in its message — in particular a circular `A` → `B` →
`A` chain fails when `B` is streamed — but a file that is merely queued
is not checked, and no check happens when a file is popped, so a
document including the same file twice before it is first processed
processes it twice with no error. -/
theorem c2_processed_include_rejected (inf : PyStr) (done : List PyStr)
    (rest : List Elem) (e : Elem) (htag : e.tag = TAG_INCLUDE)
    (hdone : resolveInc inf ((pyGet e.attrib hrefS).getD []) ∈ done) :
    streamFile inf done (e :: rest) =
      ([], [], some (.duplicateInclude (resolveInc inf ((pyGet e.attrib hrefS).getD [])))) ∧
    errMsg (.duplicateInclude (resolveInc inf ((pyGet e.attrib hrefS).getD []))) =
      resolveInc inf ((pyGet e.attrib hrefS).getD []) ++
        " is included multiple times. Stopping to avoid infinite loop due to circular includes.".data ∧
    walk fsCycle ("A.xml".data) 10 = some ([], some (.duplicateInclude ("A.xml".data))) := by
  have hne1 : ¬(TAG_INCLUDE = TAG_HEADER) := by decide
  have hne2 : ¬(TAG_INCLUDE = TAG_ENTRY) := by decide
  refine ⟨?_, rfl, rfl⟩
  simp [streamFile, htag, hne1, hne2, hdone]

/-- Witness for C2's amended theorem: a self-inclusion of the already
processed `A.xml` is rejected on the spot. -/
theorem c2_processed_include_rejected_witness :
    ((incElem ("A.xml".data)).tag = TAG_INCLUDE ∧
      resolveInc ("A.xml".data)
        ((pyGet (incElem ("A.xml".data)).attrib hrefS).getD []) ∈ [("A.xml".data)]) ∧
    streamFile ("A.xml".data) [("A.xml".data)] [incElem ("A.xml".data)] =
      ([], [], some (.duplicateInclude
        (resolveInc ("A.xml".data)
          ((pyGet (incElem ("A.xml".data)).attrib hrefS).getD [])))) :=
  ⟨⟨rfl, by decide⟩,
   (c2_processed_include_rejected ("A.xml".data) [("A.xml".data)] []
     (incElem ("A.xml".data)) rfl (by decide)).1⟩

/-! ### Helper lemmas: the rendering fold -/

theorem renderFold_nil (out : List HNode) (lists : List (PyStr × Nat)) :
    renderFold [] out lists = (out, lists) := rfl

theorem renderFold_cons_some (c : Elem) (rest : List Elem) (out : List HNode)
    (lists : List (PyStr × Nat)) (i : Nat) (hg : stripNsD c.tag ∈ groupingTags)
    (hl : pyGet lists (stripNsD c.tag) = some i) :
    renderFold (c :: rest) out lists =
      renderFold rest (modifyIdx out i (fun n => n.appendChild (liOf c))) lists := by
  simp [renderFold, hg, hl, liOf]

theorem renderFold_cons_none (c : Elem) (rest : List Elem) (out : List HNode)
    (lists : List (PyStr × Nat)) (hg : stripNsD c.tag ∈ groupingTags)
    (hl : pyGet lists (stripNsD c.tag) = none) :
    renderFold (c :: rest) out lists =
      renderFold rest (out ++ [olNode (stripNsD c.tag) [c]])
        (lists ++ [(stripNsD c.tag, out.length)]) := by
  simp [renderFold, hg, hl, olNode, liOf]

theorem renderFold_cons_div (c : Elem) (rest : List Elem) (out : List HNode)
    (lists : List (PyStr × Nat)) (hg : stripNsD c.tag ∉ groupingTags) :
    renderFold (c :: rest) out lists = renderFold rest (out ++ [divOf c]) lists := by
  simp [renderFold, hg, divOf]

theorem pyGet_none_keys {β : Type} (l : List (PyStr × β)) (k : PyStr)
    (h : pyGet l k = none) : ∀ p ∈ l, p.1 ≠ k := by
  induction l with
  | nil =>
    intro p hp
    simp at hp
  | cons a rest ih =>
    obtain ⟨a1, a2⟩ := a
    intro p hp
    simp only [pyGet] at h
    by_cases ha : a1 = k
    · rw [if_pos ha] at h
      cases h
    · rw [if_neg ha] at h
      rcases List.mem_cons.mp hp with hp | hp
      · subst hp
        exact ha
      · exact ih h p hp

theorem pyGet_mem {β : Type} (l : List (PyStr × β)) (k : PyStr) (v : β)
    (h : pyGet l k = some v) : (k, v) ∈ l := by
  induction l with
  | nil => simp [pyGet] at h
  | cons a rest ih =>
    obtain ⟨a1, a2⟩ := a
    simp only [pyGet] at h
    by_cases ha : a1 = k
    · rw [if_pos ha] at h
      cases h
      subst ha
      exact List.mem_cons_self _ _
    · rw [if_neg ha] at h
      exact List.mem_cons_of_mem _ (ih h)

theorem modifyIdx_length (l : List HNode) (i : Nat) (f : HNode → HNode) :
    (modifyIdx l i f).length = l.length := by
  induction l generalizing i with
  | nil => rfl
  | cons a rest ih =>
    cases i with
    | zero => simp [modifyIdx]
    | succ n => simp [modifyIdx, ih]

theorem modifyIdx_getq (l : List HNode) (i j : Nat) (f : HNode → HNode) :
    (modifyIdx l i f)[j]? = if j = i then (l[j]?).map f else l[j]? := by
  induction l generalizing i j with
  | nil => simp [modifyIdx]
  | cons a rest ih =>
    cases i with
    | zero =>
      cases j with
      | zero => simp [modifyIdx]
      | succ m => simp [modifyIdx]
    | succ n =>
      cases j with
      | zero => simp [modifyIdx]
      | succ m =>
        by_cases hmn : m = n
        · simp [modifyIdx, ih, hmn]
        · have hne : ¬(m + 1 = n + 1) := by omega
          simp [modifyIdx, ih, hmn, hne]

theorem gchildrenL_append_ne (P : List Elem) (c : Elem) (g : PyStr)
    (hne : ¬(stripNsD c.tag = g)) : gchildrenL (P ++ [c]) g = gchildrenL P g := by
  have hb : (stripNsD c.tag == g) = false := beq_eq_false_iff_ne.mpr hne
  simp [gchildrenL, List.filter_append, List.filter_cons, hb]

theorem gchildrenL_append_self (P : List Elem) (c : Elem) :
    gchildrenL (P ++ [c]) (stripNsD c.tag) = gchildrenL P (stripNsD c.tag) ++ [c] := by
  simp [gchildrenL, List.filter_append, List.filter_cons]

theorem olNode_appendChild (g : PyStr) (cs : List Elem) (c : Elem) :
    (olNode g cs).appendChild (liOf c) = olNode g (cs ++ [c]) := by
  simp [olNode, HNode.appendChild]

theorem RInv_nil : RInv [] [] [] := by
  refine ⟨List.Pairwise.nil, ?_, ?_, ?_⟩
  · intro p hp
    simp at hp
  · intro g _ _
    rfl
  · intro j hj _
    simp at hj

theorem RInv_step_div (P : List Elem) (out : List HNode) (lists : List (PyStr × Nat))
    (c : Elem) (hInv : RInv P out lists) (hg : stripNsD c.tag ∉ groupingTags) :
    RInv (P ++ [c]) (out ++ [divOf c]) lists := by
  obtain ⟨h1, h2, h3, h4⟩ := hInv
  have hgfilter : ∀ g, g ∈ groupingTags → gchildrenL (P ++ [c]) g = gchildrenL P g := by
    intro g hgg
    refine gchildrenL_append_ne P c g ?_
    intro hEq
    exact hg (hEq ▸ hgg)
  refine ⟨h1, ?_, ?_, ?_⟩
  · intro p hp
    obtain ⟨hpg, hpne, hpout⟩ := h2 p hp
    have hlt : p.2 < out.length := (List.getElem?_eq_some.mp hpout).1
    refine ⟨hpg, ?_, ?_⟩
    · rw [hgfilter p.1 hpg]
      exact hpne
    · rw [hgfilter p.1 hpg, List.getElem?_append, if_pos hlt]
      exact hpout
  · intro g hgg hnone
    rw [hgfilter g hgg]
    exact h3 g hgg hnone
  · intro j hj hnotidx
    rw [List.length_append, List.length_singleton] at hj
    by_cases hje : j < out.length
    · obtain ⟨c0, hc0P, hc0out, hc0g⟩ := h4 j hje hnotidx
      exact ⟨c0, List.mem_append_left _ hc0P,
        by rw [List.getElem?_append, if_pos hje]; exact hc0out, hc0g⟩
    · have hj_eq : j = out.length := by omega
      subst hj_eq
      refine ⟨c, List.mem_append_right _ (List.mem_singleton_self c), ?_, hg⟩
      rw [List.getElem?_append, if_neg (by omega)]
      simp

theorem RInv_step_new (P : List Elem) (out : List HNode) (lists : List (PyStr × Nat))
    (c : Elem) (hInv : RInv P out lists) (hg : stripNsD c.tag ∈ groupingTags)
    (hl : pyGet lists (stripNsD c.tag) = none) :
    RInv (P ++ [c]) (out ++ [olNode (stripNsD c.tag) [c]])
      (lists ++ [(stripNsD c.tag, out.length)]) := by
  obtain ⟨h1, h2, h3, h4⟩ := hInv
  have hkeys : ∀ p ∈ lists, p.1 ≠ stripNsD c.tag := pyGet_none_keys lists _ hl
  have hidx : ∀ p ∈ lists, p.2 < out.length := fun p hp =>
    (List.getElem?_eq_some.mp (h2 p hp).2.2).1
  have hPempty : gchildrenL P (stripNsD c.tag) = [] := h3 _ hg hkeys
  refine ⟨?_, ?_, ?_, ?_⟩
  · rw [List.pairwise_append]
    refine ⟨h1, List.pairwise_singleton _ _, ?_⟩
    intro p hp q hq
    simp only [List.mem_singleton] at hq
    subst hq
    exact ⟨hkeys p hp, by have := hidx p hp; omega⟩
  · intro p hp
    rcases List.mem_append.mp hp with hp | hp
    · obtain ⟨hpg, hpne, hpout⟩ := h2 p hp
      have hne : ¬(stripNsD c.tag = p.1) := fun hEq => hkeys p hp hEq.symm
      refine ⟨hpg, by rw [gchildrenL_append_ne P c p.1 hne]; exact hpne, ?_⟩
      rw [gchildrenL_append_ne P c p.1 hne, List.getElem?_append, if_pos (hidx p hp)]
      exact hpout
    · simp only [List.mem_singleton] at hp
      subst hp
      refine ⟨hg, ?_, ?_⟩
      · rw [gchildrenL_append_self, hPempty]
        simp
      · rw [gchildrenL_append_self, hPempty, List.getElem?_append, if_neg (by omega)]
        simp
  · intro g hgg hnone
    have hne : ¬(stripNsD c.tag = g) :=
      hnone (stripNsD c.tag, out.length) (List.mem_append_right _ (List.mem_singleton_self _))
    rw [gchildrenL_append_ne P c g hne]
    refine h3 g hgg ?_
    intro p hp
    exact hnone p (List.mem_append_left _ hp)
  · intro j hj hnotidx
    rw [List.length_append, List.length_singleton] at hj
    have hjne : j ≠ out.length := by
      intro hEq
      exact hnotidx (stripNsD c.tag, out.length)
        (List.mem_append_right _ (List.mem_singleton_self _)) hEq.symm
    have hjlt : j < out.length := by omega
    obtain ⟨c0, hc0P, hc0out, hc0g⟩ :=
      h4 j hjlt (fun p hp => hnotidx p (List.mem_append_left _ hp))
    exact ⟨c0, List.mem_append_left _ hc0P,
      by rw [List.getElem?_append, if_pos hjlt]; exact hc0out, hc0g⟩

theorem RInv_step_append (P : List Elem) (out : List HNode) (lists : List (PyStr × Nat))
    (c : Elem) (i : Nat) (hInv : RInv P out lists) (hg : stripNsD c.tag ∈ groupingTags)
    (hl : pyGet lists (stripNsD c.tag) = some i) :
    RInv (P ++ [c]) (modifyIdx out i (fun n => n.appendChild (liOf c))) lists := by
  obtain ⟨h1, h2, h3, h4⟩ := hInv
  have hmem : (stripNsD c.tag, i) ∈ lists := pyGet_mem lists _ i hl
  have hpwForall : ∀ p ∈ lists, ∀ q ∈ lists, p ≠ q → p.1 ≠ q.1 ∧ p.2 ≠ q.2 := by
    intro p hp q hq hne
    exact List.Pairwise.forall (fun a b h => ⟨Ne.symm h.1, Ne.symm h.2⟩) h1 hp hq hne
  refine ⟨h1, ?_, ?_, ?_⟩
  · intro p hp
    obtain ⟨hpg, hpne, hpout⟩ := h2 p hp
    by_cases hpc : p.1 = stripNsD c.tag
    · have hpeq : p = (stripNsD c.tag, i) := by
        by_contra hne
        exact (hpwForall p hp _ hmem hne).1 (by rw [hpc])
      refine ⟨hpg, ?_, ?_⟩
      · rw [hpc, gchildrenL_append_self]
        simp
      · rw [hpeq] at hpout
        rw [hpeq]
        simp only [modifyIdx_getq, if_pos]
        rw [hpout]
        simp only [Option.map_some']
        rw [gchildrenL_append_self, ← olNode_appendChild]
    · have hpne2 : p.2 ≠ i := by
        have hne : p ≠ (stripNsD c.tag, i) := by
          intro hEq
          exact hpc (by rw [hEq])
        exact (hpwForall p hp _ hmem hne).2
      have hne2 : ¬(stripNsD c.tag = p.1) := fun hEq => hpc hEq.symm
      refine ⟨hpg, by rw [gchildrenL_append_ne P c p.1 hne2]; exact hpne, ?_⟩
      rw [gchildrenL_append_ne P c p.1 hne2, modifyIdx_getq, if_neg hpne2]
      exact hpout
  · intro g hgg hnone
    have hgne : ¬(stripNsD c.tag = g) := fun hEq => hnone _ hmem hEq
    rw [gchildrenL_append_ne P c g hgne]
    exact h3 g hgg hnone
  · intro j hj hnotidx
    rw [modifyIdx_length] at hj
    have hjne : j ≠ i := fun hEq => hnotidx _ hmem hEq.symm
    obtain ⟨c0, hc0P, hc0out, hc0g⟩ := h4 j hj hnotidx
    exact ⟨c0, List.mem_append_left _ hc0P,
      by rw [modifyIdx_getq, if_neg hjne]; exact hc0out, hc0g⟩

theorem renderFold_inv (L : List Elem) :
    ∀ (P : List Elem) (out : List HNode) (lists : List (PyStr × Nat)), RInv P out lists →
      RInv (P ++ L) (renderFold L out lists).1 (renderFold L out lists).2 := by
  induction L with
  | nil =>
    intro P out lists h
    simpa [renderFold_nil] using h
  | cons c rest ih =>
    intro P out lists hInv
    by_cases hg : stripNsD c.tag ∈ groupingTags
    · rcases hl : pyGet lists (stripNsD c.tag) with _ | i
      · rw [renderFold_cons_none c rest out lists hg hl]
        have hstep := RInv_step_new P out lists c hInv hg hl
        have hres := ih (P ++ [c]) _ _ hstep
        simpa [List.append_assoc] using hres
      · rw [renderFold_cons_some c rest out lists i hg hl]
        have hstep := RInv_step_append P out lists c i hInv hg hl
        have hres := ih (P ++ [c]) _ _ hstep
        simpa [List.append_assoc] using hres
    · rw [renderFold_cons_div c rest out lists hg]
      have hstep := RInv_step_div P out lists c hInv hg
      have hres := ih (P ++ [c]) _ _ hstep
      simpa [List.append_assoc] using hres

/-! ### Helper lemmas: the single-item fix-up -/

theorem applySingles_cons (out : List HNode) (q : PyStr × Nat) (rest : List (PyStr × Nat)) :
    applySingles out (q :: rest) =
      applySingles (if childCountAt out q.2 = 1 then modifyIdx out q.2 addSingle else out)
        rest := rfl

theorem applySingles_length (lists : List (PyStr × Nat)) :
    ∀ out : List HNode, (applySingles out lists).length = out.length := by
  induction lists with
  | nil =>
    intro out
    rfl
  | cons q rest ih =>
    intro out
    rw [applySingles_cons, ih]
    by_cases h : childCountAt out q.2 = 1 <;> simp [h, modifyIdx_length]

theorem applySingles_untouched (lists : List (PyStr × Nat)) :
    ∀ (out : List HNode) (j : Nat), (∀ p ∈ lists, p.2 ≠ j) →
      (applySingles out lists)[j]? = out[j]? := by
  induction lists with
  | nil =>
    intro out j _
    rfl
  | cons q rest ih =>
    intro out j hnot
    rw [applySingles_cons]
    have hq : q.2 ≠ j := hnot q (List.mem_cons_self _ _)
    have hrest : ∀ p ∈ rest, p.2 ≠ j := fun p hp => hnot p (List.mem_cons_of_mem _ hp)
    rw [ih _ j hrest]
    by_cases h : childCountAt out q.2 = 1
    · rw [if_pos h, modifyIdx_getq, if_neg (fun hEq => hq hEq.symm)]
    · rw [if_neg h]

theorem applySingles_touched (lists : List (PyStr × Nat)) :
    ∀ (out : List HNode) (p : PyStr × Nat), p ∈ lists →
      List.Pairwise (fun a b => a.2 ≠ b.2) lists →
      (applySingles out lists)[p.2]? = (out[p.2]?).map fixSingle := by
  induction lists with
  | nil =>
    intro out p hp _
    simp at hp
  | cons q rest ih =>
    intro out p hp hpw
    rw [applySingles_cons]
    rcases List.mem_cons.mp hp with hpq | hp2
    · subst hpq
      have hrest : ∀ r ∈ rest, r.2 ≠ p.2 := by
        intro r hr
        exact Ne.symm ((List.pairwise_cons.mp hpw).1 r hr)
      rw [applySingles_untouched rest _ p.2 hrest]
      rcases hout : out[p.2]? with _ | n
      · have hcc : childCountAt out p.2 = 0 := by simp [childCountAt, hout]
        rw [if_neg (by omega), hout]
        rfl
      · have hcc : childCountAt out p.2 = n.children.length := by simp [childCountAt, hout]
        by_cases hlen : n.children.length = 1
        · rw [if_pos (by rw [hcc]; exact hlen), modifyIdx_getq, if_pos rfl, hout]
          simp [fixSingle, hlen]
        · rw [if_neg (by rw [hcc]; exact hlen), hout]
          simp [fixSingle, hlen]
    · have hq2 : q.2 ≠ p.2 := (List.pairwise_cons.mp hpw).1 p hp2
      have hpw2 := (List.pairwise_cons.mp hpw).2
      have hstep : (if childCountAt out q.2 = 1 then modifyIdx out q.2 addSingle
          else out)[p.2]? = out[p.2]? := by
        by_cases h : childCountAt out q.2 = 1
        · rw [if_pos h, modifyIdx_getq, if_neg (fun hEq => hq2 hEq.symm)]
        · rw [if_neg h]
      rw [show (applySingles (if childCountAt out q.2 = 1 then modifyIdx out q.2 addSingle
          else out) rest)[p.2]? = ((if childCountAt out q.2 = 1 then modifyIdx out q.2 addSingle
          else out)[p.2]?).map fixSingle from ih _ p hp2 hpw2, hstep]

theorem fixSingle_olNode (g : PyStr) (cs : List Elem) :
    fixSingle (olNode g cs) = olFinal g cs := by
  by_cases h : cs.length = 1
  · simp [fixSingle, olNode, olFinal, HNode.children, addSingle, h]
  · simp [fixSingle, olNode, olFinal, HNode.children, h]

theorem firstTok_groupingTag (g : PyStr) (hg : g ∈ groupingTags) :
    firstTok g = g ∧ firstTok (g ++ singleSuffix) = g := by
  have hcases : g = ("sense".data) ∨ g = ("cit".data) ∨ g = ("quote".data) := by
    simpa [groupingTags] using hg
  rcases hcases with h | h | h <;> subst h <;> exact ⟨by decide, by decide⟩

theorem olWithHead_olFinal (h g : PyStr) (hg : g ∈ groupingTags) (cs : List Elem) :
    olWithHead h (olFinal g cs) = (g == h) := by
  obtain ⟨hf1, hf2⟩ := firstTok_groupingTag g hg
  simp only [olWithHead, olFinal, HNode.tag, classAttr, HNode.attrs]
  rw [show pyGet [(classS, if cs.length = 1 then g ++ singleSuffix else g)] classS =
      some (if cs.length = 1 then g ++ singleSuffix else g) from by simp [pyGet]]
  rw [show (olS == olS) = true from beq_self_eq_true _]
  by_cases hlen : cs.length = 1
  · simp [hlen, hf2]
  · simp [hlen, hf1]

theorem olWithHead_divOf (h : PyStr) (c : Elem) : olWithHead h (divOf c) = false := by
  simp only [olWithHead, divOf, HNode.tag]
  rw [show (divS == olS) = false from by decide]
  rfl

theorem filter_eq_nil_of_all {α : Type} (p : α → Bool) (l : List α)
    (h : ∀ x ∈ l, p x = false) : l.filter p = [] := by
  induction l with
  | nil => rfl
  | cons a rest ih =>
    have ha := h a (List.mem_cons_self _ _)
    rw [List.filter_cons, if_neg (by simp [ha])]
    exact ih (fun x hx => h x (List.mem_cons_of_mem _ hx))

theorem filter_eq_singleton_of_unique {α : Type} (p : α → Bool) (l : List α) (i : Nat)
    (x : α) (hx : l[i]? = some x) (hpx : p x = true)
    (hother : ∀ j, j ≠ i → ∀ y, l[j]? = some y → p y = false) : l.filter p = [x] := by
  induction l generalizing i with
  | nil => simp at hx
  | cons a rest ih =>
    cases i with
    | zero =>
      simp only [List.getElem?_cons_zero, Option.some.injEq] at hx
      subst hx
      have hrest : rest.filter p = [] := by
        refine filter_eq_nil_of_all p rest ?_
        intro y hy
        obtain ⟨j, hj⟩ := List.getElem?_of_mem hy
        exact hother (j + 1) (by omega) y (by simpa using hj)
      rw [List.filter_cons, if_pos (by simp [hpx]), hrest]
    | succ n =>
      have hpa : p a = false := hother 0 (by omega) a (by simp)
      rw [List.filter_cons, if_neg (by simp [hpa])]
      exact ih n (by simpa using hx)
        (fun j hj y hy => hother (j + 1) (by omega) y (by simpa using hy))

/-- Complete description of the grouping lists of one rendering scope:
for each grouping tag, the scope's output holds no ordered list of that
tag when no child bears it, and exactly one otherwise, holding the
list-item renderings of exactly those children in document order, with
the `single` class token appended exactly when there is one item. -/
theorem mk_html_element_filter (e : Elem) (g : PyStr) (hg : g ∈ groupingTags) :
    (mk_html_element e).filter (olWithHead g) =
      if gchildren e g = [] then [] else [olFinal g (gchildren e g)] := by
  cases e with
  | mk t a tx ch =>
    have hInv := renderFold_inv ch [] [] [] RInv_nil
    simp only [List.nil_append] at hInv
    obtain ⟨h1, h2, h3, h4⟩ := hInv
    have hmk : mk_html_element (Elem.mk t a tx ch) =
        applySingles (renderFold ch [] []).1 (renderFold ch [] []).2 := rfl
    have hpw2 : List.Pairwise (fun a b => a.2 ≠ b.2) (renderFold ch [] []).2 :=
      h1.imp (fun h => h.2)
    have hgch : gchildren (Elem.mk t a tx ch) g = gchildrenL ch g := rfl
    rw [hmk, hgch]
    by_cases hc : gchildrenL ch g = []
    · rw [if_pos hc]
      refine filter_eq_nil_of_all _ _ ?_
      intro x hxmem
      obtain ⟨j, hj⟩ := List.getElem?_of_mem hxmem
      by_cases hidx : ∃ p ∈ (renderFold ch [] []).2, p.2 = j
      · obtain ⟨p, hp, hpj⟩ := hidx
        have htch := applySingles_touched (renderFold ch [] []).2 (renderFold ch [] []).1 p hp hpw2
        rw [hpj] at htch
        rw [htch] at hj
        obtain ⟨hpg, hpne, hpout⟩ := h2 p hp
        rw [hpj] at hpout
        rw [hpout] at hj
        simp only [Option.map_some', Option.some.injEq] at hj
        rw [← hj, fixSingle_olNode, olWithHead_olFinal g p.1 hpg]
        refine beq_eq_false_iff_ne.mpr ?_
        intro hEq
        exact hpne (hEq ▸ hc)
      · push_neg at hidx
        have hjlen : j < (renderFold ch [] []).1.length := by
          have hlt := (List.getElem?_eq_some.mp hj).1
          rwa [applySingles_length] at hlt
        rw [applySingles_untouched (renderFold ch [] []).2 (renderFold ch [] []).1 j hidx] at hj
        obtain ⟨c0, _, hc0out, _⟩ := h4 j hjlen hidx
        rw [hc0out] at hj
        simp only [Option.some.injEq] at hj
        rw [← hj]
        exact olWithHead_divOf g c0
    · rw [if_neg hc]
      have hkey : ∃ p ∈ (renderFold ch [] []).2, p.1 = g := by
        by_contra hno
        push_neg at hno
        exact hc (h3 g hg hno)
      obtain ⟨p, hp, hpg1⟩ := hkey
      obtain ⟨hpgrp, hpne, hpout⟩ := h2 p hp
      have htch := applySingles_touched (renderFold ch [] []).2 (renderFold ch [] []).1 p hp hpw2
      rw [hpout] at htch
      simp only [Option.map_some'] at htch
      rw [fixSingle_olNode] at htch
      refine filter_eq_singleton_of_unique (olWithHead g) _ p.2
        (olFinal g (gchildrenL ch g)) ?_ ?_ ?_
      · rw [htch, hpg1]
      · rw [olWithHead_olFinal g g hg]
        exact beq_self_eq_true g
      · intro j hj y hy
        by_cases hidx : ∃ q ∈ (renderFold ch [] []).2, q.2 = j
        · obtain ⟨q, hq, hqj⟩ := hidx
          have htq := applySingles_touched (renderFold ch [] []).2 (renderFold ch [] []).1 q hq hpw2
          rw [hqj] at htq
          rw [htq] at hy
          obtain ⟨hqg, hqne, hqout⟩ := h2 q hq
          rw [hqj] at hqout
          rw [hqout] at hy
          simp only [Option.map_some', Option.some.injEq] at hy
          rw [← hy, fixSingle_olNode, olWithHead_olFinal g q.1 hqg]
          refine beq_eq_false_iff_ne.mpr ?_
          intro hEq
          have hqp : q = p := by
            by_contra hne
            have hf := List.Pairwise.forall
              (fun a b hh => ⟨Ne.symm hh.1, Ne.symm hh.2⟩) h1 hq hp hne
            exact hf.1 (by rw [hEq, hpg1])
          exact hj (by rw [← hqj, hqp])
        · push_neg at hidx
          have hjlen : j < (renderFold ch [] []).1.length := by
            have hlt := (List.getElem?_eq_some.mp hy).1
            rwa [applySingles_length] at hlt
          rw [applySingles_untouched (renderFold ch [] []).2 (renderFold ch [] []).1 j hidx] at hy
          obtain ⟨c0, _, hc0out, _⟩ := h4 j hjlen hidx
          rw [hc0out] at hy
          simp only [Option.some.injEq] at hy
          rw [← hy]
          exact olWithHead_divOf g c0

/-- C1: in every rendering scope and for every grouping tag
(`sense`, `cit`, `quote`), the scope's output holds exactly one ordered
list of that tag when at least one child bears it (none otherwise); that
list carries the tag as its class, holds one list item per matching
child in document order, and carries the extra `single` class token
exactly when it holds one item.  Scoping is per parent because the
registry starts empty in every recursive call.  (The hypothesis confines
the claim to subtrees whose tags are namespace-qualified, where the
total model of `strip_ns` agrees with the source.) -/
theorem c1_grouping_lists (e : Elem) (g : PyStr) (hg : g ∈ groupingTags)
    (_hb : allBraced e = true) :
    (mk_html_element e).filter (olWithHead g) =
      if gchildren e g = [] then []
      else [HNode.mk olS
        [(classS, if (gchildren e g).length = 1 then g ++ singleSuffix else g)] none
        ((gchildren e g).map liOf)] := by
  have hres := mk_html_element_filter e g hg
  simpa [olFinal] using hres

/-- Witness for C1 at an entry holding two `sense` children and one
non-grouping child. -/
theorem c1_grouping_lists_witness :
    (("sense".data) ∈ groupingTags ∧ allBraced entryTwoSenses = true) ∧
    (mk_html_element entryTwoSenses).filter (olWithHead ("sense".data)) =
      (if gchildren entryTwoSenses ("sense".data) = [] then []
       else [HNode.mk olS
        [(classS, if (gchildren entryTwoSenses ("sense".data)).length = 1
            then ("sense".data) ++ singleSuffix else ("sense".data))] none
        ((gchildren entryTwoSenses ("sense".data)).map liOf)]) :=
  ⟨⟨by decide, by decide⟩,
   c1_grouping_lists entryTwoSenses ("sense".data) (by decide) (by decide)⟩

/-! ### Helper lemmas: class attribute values -/

theorem mem_classValuesList (s : PyStr) (l : List HNode) :
    s ∈ classValuesList l ↔ ∃ n ∈ l, s ∈ classValues n := by
  induction l with
  | nil => simp [classValuesList]
  | cons nd rest ih => simp [classValuesList, List.mem_append, ih]

theorem classValues_liOf (c : Elem) :
    classValues (liOf c) = clsOf c :: classValuesList (mk_html_element c) := by
  simp [classValues, liOf]

theorem classValues_divOf (c : Elem) :
    classValues (divOf c) = clsOf c :: classValuesList (mk_html_element c) := by
  simp [classValues, divOf]

theorem classValues_olFinal (g : PyStr) (cs : List Elem) :
    classValues (olFinal g cs) =
      (if cs.length = 1 then g ++ singleSuffix else g) :: classValuesList (cs.map liOf) := by
  simp [classValues, olFinal]

theorem allGoodList_mem (l : List Elem) (h : allGoodList l = true) (c : Elem) (hc : c ∈ l) :
    allGood c = true := by
  induction l with
  | nil => simp at hc
  | cons x rest ih =>
    simp only [allGoodList, Bool.and_eq_true] at h
    rcases List.mem_cons.mp hc with hc | hc
    · subst hc
      exact h.1
    · exact ih h.2 hc

theorem allGood_parts (c : Elem) (h : allGood c = true) :
    goodToken (stripNsD c.tag) = true ∧ typeOk c.attrib = true ∧
      allGoodList c.children = true := by
  cases c with
  | mk t a tx ch =>
    simp only [allGood, Bool.and_eq_true] at h
    exact ⟨h.1.1, h.1.2, h.2⟩

theorem all_nonws_reverse (s : PyStr) (h : s.all (fun c => !pyIsSpace c) = true) :
    s.reverse.all (fun c => !pyIsSpace c) = true := by
  rw [List.all_eq_true] at h ⊢
  intro c hc
  exact h c (List.mem_reverse.mp hc)

theorem firstNotWS_of_all (s : PyStr) (h : s.all (fun c => !pyIsSpace c) = true) :
    firstNotWS s = true := by
  cases s with
  | nil => rfl
  | cons a rest =>
    simp only [List.all_cons, Bool.and_eq_true] at h
    simp only [firstNotWS]
    exact h.1

theorem noAdjSpace_of_all (s : PyStr) (h : s.all (fun c => !pyIsSpace c) = true) :
    noAdjSpace s = true := by
  induction s with
  | nil => rfl
  | cons a rest ih =>
    simp only [List.all_cons, Bool.and_eq_true] at h
    cases rest with
    | nil => rfl
    | cons b r =>
      have hb : (!pyIsSpace b) = true := by
        have hh := h.2
        simp only [List.all_cons, Bool.and_eq_true] at hh
        exact hh.1
      have hbne : ¬(b = ' ') := by
        intro hEq
        subst hEq
        simp [pyIsSpace] at hb
      simp only [noAdjSpace, Bool.and_eq_true, Bool.not_eq_true']
      exact ⟨by simp [hbne], ih h.2⟩

theorem pyStripWS_id (s : PyStr) (h1 : firstNotWS s = true)
    (h2 : firstNotWS s.reverse = true) : pyStripWS s = s := by
  have hd : s.dropWhile pyIsSpace = s := by
    cases s with
    | nil => rfl
    | cons a rest =>
      simp only [firstNotWS, Bool.not_eq_true'] at h1
      simp [List.dropWhile_cons, h1]
  rw [pyStripWS, hd]
  have hd2 : s.reverse.dropWhile pyIsSpace = s.reverse := by
    cases hsr : s.reverse with
    | nil => rfl
    | cons a rest =>
      rw [hsr] at h2
      simp only [firstNotWS, Bool.not_eq_true'] at h2
      simp [List.dropWhile_cons, h2]
  rw [hd2, List.reverse_reverse]

theorem isNormClass_token (s : PyStr) (h : goodToken s = true) : isNormClass s = true := by
  simp only [goodToken, Bool.and_eq_true] at h
  simp only [isNormClass, Bool.and_eq_true]
  exact ⟨⟨⟨h.1, firstNotWS_of_all s h.2⟩, firstNotWS_of_all _ (all_nonws_reverse s h.2)⟩,
    noAdjSpace_of_all s h.2⟩

theorem intercalate_single (sep a : PyStr) : List.intercalate sep [a] = a := by
  simp [List.intercalate]

theorem intercalate_pair (sep a b : PyStr) :
    List.intercalate sep [a, b] = a ++ (sep ++ b) := by
  simp [List.intercalate]

theorem noAdjSpace_join2 (a b : PyStr) (ha : a.all (fun c => !pyIsSpace c) = true)
    (hb : b.all (fun c => !pyIsSpace c) = true) : noAdjSpace (a ++ ' ' :: b) = true := by
  induction a with
  | nil =>
    simp only [List.nil_append]
    cases b with
    | nil => rfl
    | cons x r =>
      have hx : (!pyIsSpace x) = true := by
        simp only [List.all_cons, Bool.and_eq_true] at hb
        exact hb.1
      have hxne : ¬(x = ' ') := by
        intro hEq
        subst hEq
        simp [pyIsSpace] at hx
      simp only [noAdjSpace, Bool.and_eq_true, Bool.not_eq_true']
      exact ⟨by simp [hxne], noAdjSpace_of_all _ hb⟩
  | cons c a ih =>
    have hc : (!pyIsSpace c) = true := by
      simp only [List.all_cons, Bool.and_eq_true] at ha
      exact ha.1
    have ha2 : a.all (fun ch => !pyIsSpace ch) = true := by
      simp only [List.all_cons, Bool.and_eq_true] at ha
      exact ha.2
    have hcne : ¬(c = ' ') := by
      intro hEq
      subst hEq
      simp [pyIsSpace] at hc
    have htail := ih ha2
    cases hshape : a ++ ' ' :: b with
    | nil => simp at hshape
    | cons y ys =>
      rw [List.cons_append, hshape]
      rw [hshape] at htail
      simp only [noAdjSpace, Bool.and_eq_true, Bool.not_eq_true']
      exact ⟨by simp [hcne], htail⟩

theorem isNormClass_join2 (a b : PyStr) (ha : goodToken a = true)
    (hb : goodToken b = true) : isNormClass (a ++ ' ' :: b) = true := by
  simp only [goodToken, Bool.and_eq_true] at ha hb
  obtain ⟨ha1, ha2⟩ := ha
  obtain ⟨hb1, hb2⟩ := hb
  simp only [isNormClass, Bool.and_eq_true]
  refine ⟨⟨⟨?_, ?_⟩, ?_⟩, noAdjSpace_join2 a b ha2 hb2⟩
  · cases a with
    | nil => simp [List.isEmpty] at ha1
    | cons x r => simp
  · cases a with
    | nil => simp [List.isEmpty] at ha1
    | cons x r =>
      have hx : (!pyIsSpace x) = true := by
        simp only [List.all_cons, Bool.and_eq_true] at ha2
        exact ha2.1
      rw [List.cons_append]
      simp only [firstNotWS]
      exact hx
  · have hrev : (a ++ ' ' :: b).reverse = b.reverse ++ (' ' :: a.reverse) := by
      rw [List.reverse_append, List.reverse_cons, List.append_assoc]
      simp
    rw [hrev]
    cases hbr : b.reverse with
    | nil =>
      exfalso
      have hbe : b = [] := by simpa using congrArg List.reverse hbr
      subst hbe
      simp [List.isEmpty] at hb1
    | cons y ys =>
      have hy : y ∈ b := List.mem_reverse.mp (by rw [hbr]; exact List.mem_cons_self _ _)
      have hyn : (!pyIsSpace y) = true := List.all_eq_true.mp hb2 y hy
      rw [List.cons_append]
      simp only [firstNotWS]
      exact hyn

theorem goodToken_of_typeOk (c : Elem) (t : PyStr) (hget : pyGet c.attrib typeS = some t)
    (ht : ¬(t = [])) (h2 : typeOk c.attrib = true) : goodToken t = true := by
  simp only [typeOk, hget] at h2
  have hie : t.isEmpty = false := by
    cases t with
    | nil => exact absurd rfl ht
    | cons x r => rfl
  rw [hie] at h2
  simp only [Bool.false_or] at h2
  simp [goodToken, hie, h2]

theorem clsOf_norm (c : Elem) (h1 : goodToken (stripNsD c.tag) = true)
    (h2 : typeOk c.attrib = true) : isNormClass (clsOf c) = true := by
  rw [clsOf]
  have hsingle : isNormClass (pyStripWS (List.intercalate [' '] [stripNsD c.tag])) = true := by
    rw [intercalate_single]
    have hn := isNormClass_token _ h1
    simp only [isNormClass, Bool.and_eq_true] at hn
    rw [pyStripWS_id _ hn.1.1.2 hn.1.2]
    exact isNormClass_token _ h1
  rcases hget : pyGet c.attrib typeS with _ | t
  · rw [show typeTruthy c = [] from by simp [typeTruthy, hget]]
    exact hsingle
  · by_cases ht : t = []
    · rw [show typeTruthy c = [] from by simp [typeTruthy, hget, ht]]
      exact hsingle
    · rw [show typeTruthy c = [t] from by simp [typeTruthy, hget, ht]]
      have htok := goodToken_of_typeOk c t hget ht h2
      rw [intercalate_pair]
      have hpair : stripNsD c.tag ++ ([' '] ++ t) = stripNsD c.tag ++ ' ' :: t := rfl
      rw [hpair]
      have hn := isNormClass_join2 _ _ h1 htok
      simp only [isNormClass, Bool.and_eq_true] at hn
      rw [pyStripWS_id _ hn.1.1.2 hn.1.2]
      exact isNormClass_join2 _ _ h1 htok

theorem isNormClass_grouping (g : PyStr) (hg : g ∈ groupingTags) (cond : Prop)
    [Decidable cond] : isNormClass (if cond then g ++ singleSuffix else g) = true := by
  have hcases : g = ("sense".data) ∨ g = ("cit".data) ∨ g = ("quote".data) := by
    simpa [groupingTags] using hg
  by_cases hc : cond
  · rw [if_pos hc]
    rcases hcases with h | h | h <;> subst h <;> decide
  · rw [if_neg hc]
    rcases hcases with h | h | h <;> subst h <;> decide

theorem c7_aux : ∀ (n : Nat) (e : Elem), sizeOf e ≤ n → allGoodList e.children = true →
    ∀ s ∈ classValuesList (mk_html_element e), isNormClass s = true := by
  intro n
  induction n with
  | zero =>
    intro e he
    exfalso
    cases e with
    | mk t a tx ch =>
      simp only [Elem.mk.sizeOf_spec] at he
      omega
  | succ n ih =>
    intro e he hgood s hs
    cases e with
    | mk t a tx ch =>
    simp only [Elem.children] at hgood
    have hInv := renderFold_inv ch [] [] [] RInv_nil
    simp only [List.nil_append] at hInv
    obtain ⟨h1, h2, h3, h4⟩ := hInv
    have hpw2 : List.Pairwise (fun a b => a.2 ≠ b.2) (renderFold ch [] []).2 :=
      h1.imp (fun h => h.2)
    rw [show mk_html_element (Elem.mk t a tx ch) =
        applySingles (renderFold ch [] []).1 (renderFold ch [] []).2 from rfl] at hs
    obtain ⟨nd, hnd, hsnd⟩ := (mem_classValuesList s _).mp hs
    obtain ⟨j, hj⟩ := List.getElem?_of_mem hnd
    have hrec : ∀ c0 ∈ ch, ∀ s2 ∈ classValuesList (mk_html_element c0),
        isNormClass s2 = true := by
      intro c0 hc0 s2 hs2
      have hg0 := allGoodList_mem ch hgood c0 hc0
      have hparts := allGood_parts c0 hg0
      refine ih c0 ?_ hparts.2.2 s2 hs2
      have hlt : sizeOf c0 < sizeOf ch := List.sizeOf_lt_of_mem hc0
      have : sizeOf (Elem.mk t a tx ch) = 1 + sizeOf t + sizeOf a + sizeOf tx + sizeOf ch := by
        simp [Elem.mk.sizeOf_spec]
      omega
    have hclsOf : ∀ c0 ∈ ch, isNormClass (clsOf c0) = true := by
      intro c0 hc0
      have hparts := allGood_parts c0 (allGoodList_mem ch hgood c0 hc0)
      exact clsOf_norm c0 hparts.1 hparts.2.1
    by_cases hidx : ∃ p ∈ (renderFold ch [] []).2, p.2 = j
    · obtain ⟨p, hp, hpj⟩ := hidx
      have htch := applySingles_touched (renderFold ch [] []).2 (renderFold ch [] []).1 p hp hpw2
      rw [hpj] at htch
      rw [htch] at hj
      obtain ⟨hpg, hpne, hpout⟩ := h2 p hp
      rw [hpj] at hpout
      rw [hpout] at hj
      simp only [Option.map_some', Option.some.injEq] at hj
      rw [← hj, fixSingle_olNode, classValues_olFinal] at hsnd
      rcases List.mem_cons.mp hsnd with hs1 | hs2
      · subst hs1
        exact isNormClass_grouping p.1 hpg _
      · obtain ⟨nd2, hnd2, hsnd2⟩ := (mem_classValuesList s _).mp hs2
        obtain ⟨c0, hc0, hc0eq⟩ := List.mem_map.mp hnd2
        have hc0ch : c0 ∈ ch := List.mem_of_mem_filter hc0
        rw [← hc0eq, classValues_liOf] at hsnd2
        rcases List.mem_cons.mp hsnd2 with hs3 | hs4
        · subst hs3
          exact hclsOf c0 hc0ch
        · exact hrec c0 hc0ch s hs4
    · push_neg at hidx
      have hjlen : j < (renderFold ch [] []).1.length := by
        have hlt := (List.getElem?_eq_some.mp hj).1
        rwa [applySingles_length] at hlt
      rw [applySingles_untouched (renderFold ch [] []).2 (renderFold ch [] []).1 j hidx] at hj
      obtain ⟨c0, hc0ch, hc0out, _⟩ := h4 j hjlen hidx
      rw [hc0out] at hj
      simp only [Option.some.injEq] at hj
      rw [← hj, classValues_divOf] at hsnd
      rcases List.mem_cons.mp hsnd with hs3 | hs4
      · subst hs3
        exact hclsOf c0 hc0ch
      · exact hrec c0 hc0ch s hs4

/-- C7 (amended): when every local tag name in the entry subtree is a
non-empty whitespace-free token and every truthy `type` attribute value
is whitespace-free, every class attribute value produced by the renderer
is present-and-non-empty with no leading whitespace, no trailing
whitespace and no doubled spaces.  Without the `type` restriction the
claim fails: a `type` value carrying internal whitespace is copied into
the class attribute verbatim (see the counterexample). -/
theorem c7_class_attributes_normalized (e : Elem) (hgood : allGoodList e.children = true) :
    ∀ s ∈ classValuesList (mk_html_element e), isNormClass s = true :=
  c7_aux (sizeOf e) e le_rfl hgood

/-- C7 counterexample: a child with `type="a  b"` renders to a block
element whose class attribute `"b a  b"` contains two consecutive
spaces, so the claimed invariant is false as stated. -/
theorem c7_class_attributes_counterexample :
    classValuesList (mk_html_element entryBadType) = [("b a  b".data)] ∧
    noAdjSpace ("b a  b".data) = false ∧ isNormClass ("b a  b".data) = false := by
  exact ⟨rfl, by decide, by decide⟩

/-- Witness for C7's amended theorem at a well-formed entry. -/
theorem c7_class_attributes_normalized_witness :
    (allGoodList entryTwoSenses.children = true ∧
      ("sense".data) ∈ classValuesList (mk_html_element entryTwoSenses)) ∧
    isNormClass ("sense".data) = true :=
  ⟨⟨by decide, by decide⟩,
   c7_class_attributes_normalized entryTwoSenses (by decide) ("sense".data) (by decide)⟩
